import Mathlib

/-!
Shallow embedding of the render-orchestration core of `simplesitesystem`
(`src/simplesitesystem/main.py`).

Paths are plain strings, exactly as in the source, where all path
arithmetic is string arithmetic through `os.path.join`, `os.path.dirname`,
`os.path.basename`, `os.path.relpath`, `os.path.splitext` and
`str.split(os.extsep)`; those POSIX primitives are reimplemented here
character by character.

A template is modelled by its logical name, the sequence of `autolink`
queries its body issues while it is rendered (the only way template
evaluation re-enters the core), and the title/description metadata its
rendered HTML carries (the PyQuery scraping collaborator is abstracted to
those two fields).  Rendering is re-entrant through `autolink`, so it is
embedded with explicit fuel; `none` models a Python run that does not
finish.  The write log `fs` records every `f.write` in order, and `pages`
is the memo list of the source.
-/

namespace S3

/-- Python `os.path.splitext(s)[1]`: the final dot-suffix of the basename,
empty when the basename has no dot or only leading dots. -/
def extension (s : String) : String :=
  let b := s.data.reverse.takeWhile (· ≠ '/')
  let pre := b.takeWhile (· ≠ '.')
  if pre.length = b.length then ""
  else if (b.drop (pre.length + 1)).any (· ≠ '.') then ⟨'.' :: pre.reverse⟩ else ""

/-- Python `strip_exts` (main.py line 27): `filename.split(os.extsep)[0]`,
everything before the first `.` of the whole string. -/
def strip_exts (s : String) : String := ⟨s.data.takeWhile (· ≠ '.')⟩

/-- Python `os.path.join(a, b)` for POSIX paths. -/
def pjoin (a b : String) : String :=
  if b.data.head? = some '/' then b
  else if a = "" ∨ a.data.getLast? = some '/' then a ++ b
  else a ++ "/" ++ b

/-- Python `os.path.dirname` for POSIX paths. -/
def dirname (p : String) : String :=
  let head := (p.data.reverse.dropWhile (· ≠ '/')).reverse
  if head ≠ [] ∧ head.any (· ≠ '/') then ⟨(head.reverse.dropWhile (· = '/')).reverse⟩
  else ⟨head⟩

/-- Python `os.path.basename` for POSIX paths. -/
def basename (p : String) : String := ⟨(p.data.reverse.takeWhile (· ≠ '/')).reverse⟩

/-- Split a character list on `/` separators, Python `str.split("/")`. -/
def splitSlash : List Char → List (List Char)
  | [] => [[]]
  | c :: cs =>
    if c = '/' then [] :: splitSlash cs
    else
      match splitSlash cs with
      | [] => [[c]]
      | g :: gs => (c :: g) :: gs

/-- Nonempty path components, as `posixpath.relpath` computes them. -/
def comps (s : String) : List (List Char) := (splitSlash s.data).filter (· ≠ [])

/-- Length of the common prefix of two component lists. -/
def commonPrefixLen : List (List Char) → List (List Char) → Nat
  | x :: xs, y :: ys => if x = y then commonPrefixLen xs ys + 1 else 0
  | _, _ => 0

/-- Join components back with `/`. -/
def joinComps : List (List Char) → List Char
  | [] => []
  | [c] => c
  | c :: cs => c ++ '/' :: joinComps cs

/-- Python `posixpath.relpath path start` for already-normalised relative
paths; the source only calls it on such paths (`abspath` prefixes both
arguments with the same working directory, which cancels out of the
common-prefix computation). -/
def relpath (path start : String) : String :=
  let ps := comps path
  let ss := comps start
  let i := commonPrefixLen ps ss
  let rel := List.replicate (ss.length - i) ['.', '.'] ++ ps.drop i
  if rel = [] then "." else ⟨joinComps rel⟩

/-- A discovered template: its logical name (path relative to the source
root), the `autolink` queries its body issues when evaluated, and the
title/description metadata its rendered HTML exposes to the scraper
(`none` models a missing element or attribute). -/
structure Template where
  name : String
  body : List String
  title? : Option String
  desc? : Option String
deriving DecidableEq

/-- An autolink result sequence: `(url, title, description)` tuples. -/
abbrev Links := List (String × String × Option String)

/-- The renderer state: the memo list `pages` of the source, and the write
log `fs` recording every completed `f.write(...)` in order, keyed by path. -/
structure RState where
  pages : List String
  fs : List (String × Template)
deriving DecidableEq

/-- The output path computed by `render` (main.py line 148):
`strip_exts(os.path.join(output_dir, locale, template.name)) + ".html"`. -/
def outPath (output_dir locale name : String) : String :=
  strip_exts (pjoin (pjoin output_dir locale) name) ++ ".html"

/-- The templates matched by an `autolink` query (main.py lines 103-107):
those whose `dirname` equals `os.path.join(in_template_dir, path)`. -/
def matchesQuery (templates : List Template) (in_template_dir path : String) :
    List Template :=
  templates.filter (fun target => dirname target.name == pjoin in_template_dir path)

/-- Reading the file at `p` back from the write log: the last write wins. -/
def lookupFs (fs : List (String × Template)) (p : String) : Option Template :=
  (fs.reverse.find? (fun e => e.1 == p)).map Prod.snd

/-- One pass of the `autolink` generator loop (main.py lines 105-122): each
matched target is rendered on demand through `render1`, its page is read
back from disk, and the yielded tuple carries the URL relative to the
calling page together with the scraped title (empty when missing) and
description (`None` when missing). -/
def autolinkGo (render1 : RState → Template → Option (RState × String))
    (in_page_path : String) : RState → List Template → Option (RState × Links)
  | st, [] => some (st, [])
  | st, target :: rest =>
    match render1 st target with
    | none => none
    | some (st1, target_page) =>
      match lookupFs st1.fs target_page with
      | none => none
      | some doc =>
        let url : String :=
          pjoin (relpath (dirname target_page) (dirname in_page_path))
            (basename target_page)
        match autolinkGo render1 in_page_path st1 rest with
        | none => none
        | some (st2, links) =>
          some (st2, (url, (doc.title?).getD "", doc.desc?) :: links)

/-- Evaluation of a template body: the recorded `autolink` queries are
issued in order, each fully consumed (its side effect is the demand-driven
rendering of every matched target). -/
def bodyGo (render1 : RState → Template → Option (RState × String))
    (templates : List Template) (in_template_dir in_page_path : String) :
    RState → List String → Option RState
  | st, [] => some st
  | st, q :: qs =>
    match autolinkGo render1 in_page_path st (matchesQuery templates in_template_dir q) with
    | none => none
    | some (st1, _) => bodyGo render1 templates in_template_dir in_page_path st1 qs

/-- The memoized renderer (`render`, main.py lines 142-170), with explicit
fuel for the calls re-entered through `autolink`.  When `page_path` is
already in `pages` it returns at once; otherwise the body is evaluated
(which may render other templates), the page is written, and only then is
`page_path` appended to the memo. -/
def render (templates : List Template) (output_dir locale : String) :
    Nat → RState → Template → Option (RState × String)
  | 0, _, _ => none
  | fuel + 1, st, template =>
    let page_path := outPath output_dir locale template.name
    if page_path ∈ st.pages then some (st, page_path)
    else
      match bodyGo (render templates output_dir locale fuel) templates
          (dirname template.name) page_path st template.body with
      | none => none
      | some st1 =>
        some ({ pages := st1.pages ++ [page_path],
                fs := st1.fs ++ [(page_path, template)] }, page_path)

/-- The template-facing `autolink` capability of a calling template
(`get_autolink`, main.py lines 81-124), at a given fuel. -/
def autolink (templates : List Template) (output_dir locale : String) (fuel : Nat)
    (in_template_dir in_page_path : String) (st : RState) (path : String) :
    Option (RState × Links) :=
  autolinkGo (render templates output_dir locale fuel) in_page_path st
    (matchesQuery templates in_template_dir path)

/-- Driving the renderer over a list of templates, as the orchestrator does
(`for template in templates: render(template, locale)`). -/
def renderAll (templates : List Template) (output_dir locale : String) (fuel : Nat) :
    RState → List Template → Option RState
  | st, [] => some st
  | st, t :: ts =>
    match render templates output_dir locale fuel st t with
    | none => none
    | some (st1, _) => renderAll templates output_dir locale fuel st1 ts

/-! ### Concrete templates used to instantiate the theorems -/

/-- A lone top-level template issuing no autolink query. -/
def tBare : Template := ⟨"index.html.jinja", [], none, none⟩

/-- An index template that autolinks the sibling directory `blog`. -/
def tHome : Template := ⟨"index.html.jinja", ["blog"], some "Home", none⟩

/-- A blog post with both title and description metadata. -/
def tPostA : Template := ⟨"blog/a.html.jinja", [], some "A", some "dA"⟩

/-- A blog post with neither title nor description metadata. -/
def tPostB : Template := ⟨"blog/b.html.jinja", [], none, none⟩

/-- A top-level template whose single autolink query (the empty relative
path) resolves to its own directory, hence matches itself. -/
def tSelf : Template := ⟨"a.html.jinja", [""], none, none⟩

/-- Two distinct templates whose names strip to the same output path. -/
def tColl1 : Template := ⟨"a.html.jinja", [], some "first", none⟩

/-- See `tColl1`: `a.txt.jinja` also strips to `a` + `.html`. -/
def tColl2 : Template := ⟨"a.txt.jinja", [], some "second", none⟩

/-! ### Invariants and contracts used by the verification -/

/-- Well-formedness of the renderer state: the write log and the memo list
correspond entry by entry (the source appends to both together), every
write is keyed by the output path of the template that produced it, and
only discovered templates are ever written. -/
def InvBasic (tl : List Template) (od loc : String) (st : RState) : Prop :=
  st.fs.map Prod.fst = st.pages ∧
    ∀ e ∈ st.fs, e.1 = outPath od loc e.2.name ∧ e.2 ∈ tl

/-- `InvBasic` plus: no output path has been written twice. -/
def InvM (tl : List Template) (od loc : String) (st : RState) : Prop :=
  InvBasic tl od loc st ∧ st.pages.Nodup

/-- Distinct discovered templates have distinct output paths. -/
def InjPaths (tl : List Template) (od loc : String) : Prop :=
  ∀ a ∈ tl, ∀ b ∈ tl, outPath od loc a.name = outPath od loc b.name → a = b

/-- The autolink dependency relation admits a strictly decreasing rank:
every target matched by a query of `t` ranks below `t`.  This is the
acyclicity condition under which the memoized recursion cannot re-enter a
render that is still in flight. -/
def RankOK (tl : List Template) (rank : Template → Nat) : Prop :=
  ∀ t ∈ tl, ∀ q ∈ t.body, ∀ u ∈ matchesQuery tl (dirname t.name) q, rank u < rank t

/-- Contract on the re-entrant render callback available to `autolink`,
used as the induction hypothesis on fuel: below rank bound `F` it succeeds,
preserves the invariants, only appends to the memo, and every page it adds
belongs to a template ranking at most as high as the one rendered. -/
def R1Spec (tl : List Template) (od loc : String) (rank : Template → Nat) (F : Nat)
    (render1 : RState → Template → Option (RState × String)) : Prop :=
  ∀ u ∈ tl, rank u < F → ∀ st, InvM tl od loc st →
    ∃ st', render1 st u = some (st', outPath od loc u.name) ∧ InvM tl od loc st' ∧
      outPath od loc u.name ∈ st'.pages ∧
      ∃ d, st'.pages = st.pages ++ d ∧
        ∀ p ∈ d, ∃ v ∈ tl, rank v ≤ rank u ∧ p = outPath od loc v.name

/-- Weak contract on the render callback: it only appends to the state and
preserves `InvBasic`.  Holds unconditionally of `render` at every fuel. -/
def GrowSpec (tl : List Template) (od loc : String)
    (render1 : RState → Template → Option (RState × String)) : Prop :=
  ∀ u ∈ tl, ∀ st st' p, render1 st u = some (st', p) →
    p = outPath od loc u.name ∧ p ∈ st'.pages ∧
      (∃ d, st'.pages = st.pages ++ d) ∧ (∃ d, st'.fs = st.fs ++ d) ∧
      (InvBasic tl od loc st → InvBasic tl od loc st')

/-- The rank used to instantiate the termination theorem on the worked
example: the index template ranks above the two posts it links. -/
def exRank : Template → Nat := fun t => if t.name = "index.html.jinja" then 1 else 0

/-- Modelled from the spec's words (claim C4's stated convention): join
`outputRoot/locale/templateName`, with extension-stripping applied to the
bare filename — split the basename on its first dot and discard everything
after it — then append `.html`.  Compared against `outPath`, which is what
the code computes. -/
def specOutPath (output_dir locale name : String) : String :=
  pjoin (pjoin output_dir locale)
    (pjoin (dirname name) (strip_exts (basename name) ++ ".html"))

/-! ### The build orchestrator (main.py lines 196-269) -/

/-- Observable filesystem effects and messages of a build. -/
inductive Event where
  | rmtree (path : String)
  | print (msg : String)
  | copytree (src dst : String)
  | makedirs (path : String)
  | symlink (target linkpath : String)
  | write (path : String)
deriving DecidableEq

/-- Python `sep.join(xs)`. -/
def strJoin (sep : String) : List String → String
  | [] => ""
  | [x] => x
  | x :: xs => x ++ sep ++ strJoin sep xs

/-- The message printed for the ignore file (main.py lines 210-216):
either the excluded names or the not-found notice. -/
def ignoreMsg : Option (List String) → String
  | some ignore => "Excluding: " ++ strJoin ", " ignore
  | none => ".simpleignore not found."

/-- The parsed localization table in file-declaration order: locale keys
mapped to their string tables. -/
abbrev Localizations := List (String × List (String × String))

/-- The `assets` generator (main.py lines 46-50): the walk yields the full
path of every file whose extension is not `.jinja`.  `sourceFiles` holds
the walked files' paths relative to the source root in discovery order. -/
def assets (source_dir : String) (sourceFiles : List String) : List String :=
  (sourceFiles.filter (fun f => extension f ≠ ".jinja")).map
    (fun f => pjoin source_dir f)

/-- The `symlink` helper (main.py lines 53-78): create the link's parent
directory, then a relative symlink at the asset's path under the locale
directory pointing back into the first locale's tree. -/
def symlink (asset_filepath locale_dir first_locale_dir : String) : List Event :=
  let new_filepath := pjoin locale_dir asset_filepath
  let existing_filepath := pjoin first_locale_dir asset_filepath
  let new_file_dir := dirname new_filepath
  let existing_file_dir := dirname existing_filepath
  [Event.makedirs new_file_dir,
    Event.symlink
      (pjoin (relpath existing_file_dir new_file_dir) (basename asset_filepath))
      new_filepath]

/-- The asset-replication effects of one locale iteration (main.py lines
253-266): a recursive copy for the first locale (or when symlinking is
disabled), relative symlinks for every asset otherwise. -/
def assetEvents (src od first_locale : String) (sourceFiles : List String)
    (noSym : Bool) (locale : String) : List Event :=
  if locale = first_locale ∨ noSym = true then
    [Event.copytree src (pjoin od locale)]
  else
    ((assets src sourceFiles).map (fun filepath =>
      symlink (relpath filepath src) (pjoin od locale) (pjoin od first_locale))).flatten

/-- One iteration of the build's locale loop (main.py lines 249-269):
print, replicate assets, then drive the shared renderer over all templates.
Render effects append one write event per new entry of the write log; the
renderer state is the one accumulated by all previous locales (a single
`get_renderer` closure is created before the loop, line 245). -/
def localeStep (tl : List Template) (src od first_locale : String)
    (sourceFiles : List String) (noSym : Bool) (fuel : Nat)
    (acc : RState × List Event) (locale : String) : Option (RState × List Event) :=
  match renderAll tl od locale fuel acc.1 tl with
  | none => none
  | some st' =>
    some (st', acc.2 ++ [Event.print ("Rendering locale " ++ locale ++ "...")] ++
      assetEvents src od first_locale sourceFiles noSym locale ++
      (st'.fs.drop acc.1.fs.length).map (fun e => Event.write e.1))

/-- The build's locale loop (`for locale in localizations`). -/
def localeLoop (tl : List Template) (src od first_locale : String)
    (sourceFiles : List String) (noSym : Bool) (fuel : Nat) :
    RState × List Event → List String → Option (RState × List Event)
  | acc, [] => some acc
  | acc, locale :: rest =>
    match localeStep tl src od first_locale sourceFiles noSym fuel acc locale with
    | none => none
    | some acc' => localeLoop tl src od first_locale sourceFiles noSym fuel acc' rest

/-- The `build` command (main.py lines 196-269) in its localized branch —
the CLI's strings-file option has a default and must exist, so the
unlocalized branch (line 228) is unreachable from the command line.  The
ignore list and the parsed localization table are inputs; the output is the
final shared renderer state and the effect trace, or `none` when rendering
does not finish.  Directory creation inside `render` (idempotent, derivable
from the write paths) is not traced. -/
def build (discovered : List Template) (ign : Option (List String))
    (src od : String) (sourceFiles : List String) (noSym : Bool)
    (localizations : Localizations) (fuel : Nat) : Option (RState × List Event) :=
  let templates := discovered.filter (fun t => decide (t.name ∉ ign.getD []))
  let pre : List Event :=
    [Event.print (ignoreMsg ign), Event.rmtree (pjoin od "."),
      Event.print "Loading templates..."]
  match localizations with
  | [] => some (⟨[], []⟩, pre ++ [Event.print "No localizations in strings file."])
  | (first_locale, _) :: _ =>
    localeLoop templates src od first_locale sourceFiles noSym fuel
      (⟨[], []⟩, pre) (localizations.map Prod.fst)

/-- The memo state the shared renderer holds at the start of each locale's
pass: an observation of the same locale loop, recording `(locale, state
before the pass)` pairs. -/
def localeSnapshots (tl : List Template) (src od first_locale : String)
    (sourceFiles : List String) (noSym : Bool) (fuel : Nat) :
    RState × List Event → List String → Option (List (String × RState))
  | _, [] => some []
  | acc, locale :: rest =>
    match localeStep tl src od first_locale sourceFiles noSym fuel acc locale with
    | none => none
    | some acc' =>
      match localeSnapshots tl src od first_locale sourceFiles noSym fuel acc' rest with
      | none => none
      | some snaps => some ((locale, acc.1) :: snaps)

/-- Does an event create something on disk? -/
def creates : Event → Bool
  | Event.copytree _ _ => true
  | Event.makedirs _ => true
  | Event.symlink _ _ => true
  | Event.write _ => true
  | _ => false

/-- Is an event a symlink creation? -/
def isSymlinkEvent : Event → Bool
  | Event.symlink _ _ => true
  | _ => false

/-! ### Basic facts about `render` -/

/-- Whatever happens inside, a completed `render` call returns the computed
output path, and that path is in the memo afterwards. -/
lemma render_post {tl : List Template} {od loc : String} {n : Nat} {st st' : RState}
    {t : Template} {p : String} (h : render tl od loc n st t = some (st', p)) :
    p = outPath od loc t.name ∧ p ∈ st'.pages := by
  cases n with
  | zero => simp [render] at h
  | succ fuel =>
    rw [render] at h
    by_cases hm : outPath od loc t.name ∈ st.pages
    · simp only [hm, if_pos] at h
      obtain ⟨h1, h2⟩ := Prod.mk.injEq .. ▸ Option.some.injEq .. ▸ h
      exact ⟨h2.symm, by rw [← h1, ← h2]; exact hm⟩
    · simp only [hm, if_neg, not_false_iff] at h
      cases hb : bodyGo (render tl od loc fuel) tl (dirname t.name)
          (outPath od loc t.name) st t.body with
      | none => rw [hb] at h; exact absurd h (by simp)
      | some st1 =>
        rw [hb] at h
        obtain ⟨h1, h2⟩ := Prod.mk.injEq .. ▸ Option.some.injEq .. ▸ h
        refine ⟨h2.symm, ?_⟩
        rw [← h1]
        simp [h2.symm]

/-- A `render` call that finds its path unmemoized appends a write of its own
template to the file log. -/
lemma render_write {tl : List Template} {od loc : String} {n : Nat} {st st' : RState}
    {t : Template} {p : String} (h : render tl od loc n st t = some (st', p))
    (hnew : outPath od loc t.name ∉ st.pages) : (p, t) ∈ st'.fs := by
  cases n with
  | zero => simp [render] at h
  | succ fuel =>
    rw [render] at h
    simp only [hnew, if_neg, not_false_iff] at h
    cases hb : bodyGo (render tl od loc fuel) tl (dirname t.name)
        (outPath od loc t.name) st t.body with
    | none => rw [hb] at h; exact absurd h (by simp)
    | some st1 =>
      rw [hb] at h
      obtain ⟨h1, h2⟩ := Prod.mk.injEq .. ▸ Option.some.injEq .. ▸ h
      rw [← h1, h2]
      simp

/-- A path that occurs in the write log can be read back. -/
lemma lookupFs_of_mem {fs : List (String × Template)} {p : String}
    (h : p ∈ fs.map Prod.fst) : ∃ c, lookupFs fs p = some c := by
  obtain ⟨e, he, hep⟩ := List.mem_map.mp h
  rcases hf : fs.reverse.find? (fun e => e.1 == p) with _ | c
  · rw [List.find?_eq_none] at hf
    exact absurd (by simpa using hep) (by simpa using hf e (List.mem_reverse.mpr he))
  · exact ⟨c.2, by simp [lookupFs, hf]⟩

/-- Reading a path back returns an entry of the write log for that path. -/
lemma lookupFs_mem {fs : List (String × Template)} {p : String} {c : Template}
    (h : lookupFs fs p = some c) : (p, c) ∈ fs := by
  unfold lookupFs at h
  rcases hf : fs.reverse.find? (fun e => e.1 == p) with _ | e
  · rw [hf] at h; simp at h
  · rw [hf] at h
    have h2 : e.2 = c := by simpa using h
    have hmem := List.mem_reverse.mp (List.mem_of_find?_eq_some hf)
    have hpred : e.1 = p := by simpa using List.find?_some hf
    obtain ⟨e1, e2⟩ := e
    cases hpred
    cases h2
    exact hmem

/-- Growth and invariant preservation for the autolink loop, given the
callback's weak contract. -/
lemma autolinkGo_grow {tl : List Template} {od loc : String}
    {render1 : RState → Template → Option (RState × String)}
    (h1 : GrowSpec tl od loc render1) :
    ∀ (ms : List Template), (∀ u ∈ ms, u ∈ tl) →
      ∀ (st : RState) (pp : String) (st' : RState) (links : Links),
        autolinkGo render1 pp st ms = some (st', links) →
        (∃ d, st'.pages = st.pages ++ d) ∧ (∃ d, st'.fs = st.fs ++ d) ∧
          (InvBasic tl od loc st → InvBasic tl od loc st') := by
  intro ms
  induction ms with
  | nil =>
    intro _ st pp st' links h
    rw [autolinkGo] at h
    cases h
    exact ⟨⟨[], by simp⟩, ⟨[], by simp⟩, id⟩
  | cons target rest ihm =>
    intro hms st pp st' links h
    rw [autolinkGo] at h
    cases hr : render1 st target with
    | none => rw [hr] at h; exact Option.noConfusion h
    | some pr =>
      obtain ⟨st1, tp⟩ := pr
      simp only [hr] at h
      obtain ⟨-, -, ⟨d1, hd1⟩, ⟨e1, he1⟩, hi1⟩ :=
        h1 target (hms target (List.mem_cons_self ..)) st st1 tp hr
      cases hc : lookupFs st1.fs tp with
      | none => rw [hc] at h; exact Option.noConfusion h
      | some doc =>
        simp only [hc] at h
        cases ha : autolinkGo render1 pp st1 rest with
        | none => rw [ha] at h; exact Option.noConfusion h
        | some pr2 =>
          obtain ⟨st2, links2⟩ := pr2
          simp only [ha] at h
          cases h
          obtain ⟨⟨d2, hd2⟩, ⟨e2, he2⟩, hi2⟩ :=
            ihm (fun u hu => hms u (List.mem_cons_of_mem _ hu)) st1 pp _ _ ha
          exact ⟨⟨d1 ++ d2, by rw [hd2, hd1, List.append_assoc]⟩,
            ⟨e1 ++ e2, by rw [he2, he1, List.append_assoc]⟩, fun hb => hi2 (hi1 hb)⟩

/-- Growth and invariant preservation for body evaluation. -/
lemma bodyGo_grow {tl : List Template} {od loc : String}
    {render1 : RState → Template → Option (RState × String)}
    (h1 : GrowSpec tl od loc render1) (dir pp : String) :
    ∀ (qs : List String) (st st' : RState),
      bodyGo render1 tl dir pp st qs = some st' →
      (∃ d, st'.pages = st.pages ++ d) ∧ (∃ d, st'.fs = st.fs ++ d) ∧
        (InvBasic tl od loc st → InvBasic tl od loc st') := by
  intro qs
  induction qs with
  | nil =>
    intro st st' h
    rw [bodyGo] at h
    cases h
    exact ⟨⟨[], by simp⟩, ⟨[], by simp⟩, id⟩
  | cons q qs ihq =>
    intro st st' h
    rw [bodyGo] at h
    cases ha : autolinkGo render1 pp st (matchesQuery tl dir q) with
    | none => rw [ha] at h; exact Option.noConfusion h
    | some pr =>
      obtain ⟨st1, links⟩ := pr
      simp only [ha] at h
      obtain ⟨⟨d1, hd1⟩, ⟨e1, he1⟩, hi1⟩ :=
        autolinkGo_grow h1 _ (fun u hu => (List.mem_filter.mp hu).1) st pp st1 links ha
      obtain ⟨⟨d2, hd2⟩, ⟨e2, he2⟩, hi2⟩ := ihq st1 st' h
      exact ⟨⟨d1 ++ d2, by rw [hd2, hd1, List.append_assoc]⟩,
        ⟨e1 ++ e2, by rw [he2, he1, List.append_assoc]⟩, fun hb => hi2 (hi1 hb)⟩

/-- `render` satisfies the weak contract at every fuel: it only appends to
the state and preserves `InvBasic`. -/
lemma render_grow {tl : List Template} {od loc : String} :
    ∀ n : Nat, GrowSpec tl od loc (render tl od loc n) := by
  intro n
  induction n with
  | zero => intro u hu st st' p h; simp [render] at h
  | succ k ih =>
    intro u hu st st' p h
    obtain ⟨hp, hmem⟩ := render_post h
    refine ⟨hp, hmem, ?_⟩
    rw [render] at h
    by_cases hm : outPath od loc u.name ∈ st.pages
    · simp only [hm, if_pos] at h
      cases h
      exact ⟨⟨[], by simp⟩, ⟨[], by simp⟩, id⟩
    · simp only [hm, if_neg, not_false_iff] at h
      cases hb : bodyGo (render tl od loc k) tl (dirname u.name)
          (outPath od loc u.name) st u.body with
      | none => rw [hb] at h; exact Option.noConfusion h
      | some st1 =>
        simp only [hb] at h
        cases h
        obtain ⟨⟨d1, hd1⟩, ⟨e1, he1⟩, hi1⟩ := bodyGo_grow ih (dirname u.name)
          (outPath od loc u.name) u.body st st1 hb
        refine ⟨⟨d1 ++ [outPath od loc u.name], by simp [hd1]⟩,
          ⟨e1 ++ [(outPath od loc u.name, u)], by simp [he1]⟩, fun hbas => ?_⟩
        obtain ⟨hmap, hent⟩ := hi1 hbas
        constructor
        · simp [hmap]
        · intro e he
          rcases List.mem_append.mp he with hold | hnew
          · exact hent e hold
          · rw [List.mem_singleton.mp hnew]
            exact ⟨rfl, hu⟩

/-- Under the rank contract, the autolink loop over targets ranking below
`B` succeeds, preserves the invariants, and only adds pages of templates
ranking below `B`. -/
lemma autolinkGo_rank {tl : List Template} {od loc : String} {rank : Template → Nat}
    {F B : Nat} {render1 : RState → Template → Option (RState × String)}
    (h1 : R1Spec tl od loc rank F render1) (hBF : B ≤ F) :
    ∀ (ms : List Template), (∀ u ∈ ms, u ∈ tl ∧ rank u < B) →
      ∀ (st : RState) (pp : String), InvM tl od loc st →
        ∃ st' links, autolinkGo render1 pp st ms = some (st', links) ∧
          InvM tl od loc st' ∧
          ∃ d, st'.pages = st.pages ++ d ∧
            ∀ p ∈ d, ∃ v ∈ tl, rank v < B ∧ p = outPath od loc v.name := by
  intro ms
  induction ms with
  | nil =>
    intro _ st pp hst
    exact ⟨st, [], by rw [autolinkGo], hst, [], by simp, by simp⟩
  | cons target rest ihm =>
    intro hms st pp hst
    obtain ⟨htl, hrk⟩ := hms target (List.mem_cons_self ..)
    obtain ⟨st1, hr, hst1, hmem1, d1, hd1, hb1⟩ :=
      h1 target htl (lt_of_lt_of_le hrk hBF) st hst
    obtain ⟨doc, hc⟩ : ∃ c, lookupFs st1.fs (outPath od loc target.name) = some c := by
      apply lookupFs_of_mem
      rw [hst1.1.1]
      exact hmem1
    obtain ⟨st2, links, ha, hst2, d2, hd2, hb2⟩ :=
      ihm (fun u hu => hms u (List.mem_cons_of_mem _ hu)) st1 pp hst1
    refine ⟨st2,
      (pjoin (relpath (dirname (outPath od loc target.name)) (dirname pp))
          (basename (outPath od loc target.name)), (doc.title?).getD "", doc.desc?) :: links,
      ?_, hst2, d1 ++ d2, by rw [hd2, hd1, List.append_assoc], ?_⟩
    · rw [autolinkGo]
      simp only [hr, hc, ha]
    · intro p hp
      rcases List.mem_append.mp hp with hp1 | hp2
      · obtain ⟨v, hv, hrv, hpv⟩ := hb1 p hp1
        exact ⟨v, hv, lt_of_le_of_lt hrv hrk, hpv⟩
      · exact hb2 p hp2

/-- Under the rank contract, evaluating queries of a template `t` succeeds
and only adds pages of templates ranking strictly below `t`. -/
lemma bodyGo_rank {tl : List Template} {od loc : String} {rank : Template → Nat}
    {F : Nat} {render1 : RState → Template → Option (RState × String)}
    (h1 : R1Spec tl od loc rank F render1) (hR : RankOK tl rank)
    {t : Template} (htl : t ∈ tl) (hBF : rank t ≤ F) (pp : String) :
    ∀ (qs : List String), (∀ q ∈ qs, q ∈ t.body) →
      ∀ (st : RState), InvM tl od loc st →
        ∃ st', bodyGo render1 tl (dirname t.name) pp st qs = some st' ∧
          InvM tl od loc st' ∧
          ∃ d, st'.pages = st.pages ++ d ∧
            ∀ p ∈ d, ∃ v ∈ tl, rank v < rank t ∧ p = outPath od loc v.name := by
  intro qs
  induction qs with
  | nil =>
    intro _ st hst
    exact ⟨st, by rw [bodyGo], hst, [], by simp, by simp⟩
  | cons q qs ihq =>
    intro hqs st hst
    have hms : ∀ u ∈ matchesQuery tl (dirname t.name) q, u ∈ tl ∧ rank u < rank t :=
      fun u hu => ⟨(List.mem_filter.mp hu).1,
        hR t htl q (hqs q (List.mem_cons_self ..)) u hu⟩
    obtain ⟨st1, links, ha, hst1, d1, hd1, hb1⟩ :=
      autolinkGo_rank h1 hBF (matchesQuery tl (dirname t.name) q) hms st pp hst
    obtain ⟨st2, hb, hst2, d2, hd2, hb2⟩ :=
      ihq (fun r hr => hqs r (List.mem_cons_of_mem _ hr)) st1 hst1
    refine ⟨st2, ?_, hst2, d1 ++ d2, by rw [hd2, hd1, List.append_assoc], ?_⟩
    · rw [bodyGo]
      simp only [ha, hb]
    · intro p hp
      rcases List.mem_append.mp hp with hp1 | hp2
      · exact hb1 p hp1
      · exact hb2 p hp2

/-- The main termination-and-uniqueness engine: when the autolink dependency
relation is ranked (no cycles) and output paths do not collide, `render`
meets the rank contract at every fuel. -/
lemma render_rank {tl : List Template} {od loc : String} {rank : Template → Nat}
    (hR : RankOK tl rank) (hI : InjPaths tl od loc) :
    ∀ n : Nat, R1Spec tl od loc rank n (render tl od loc n) := by
  intro n
  induction n with
  | zero => intro u hu h0; exact absurd h0 (Nat.not_lt_zero _)
  | succ k ih =>
    intro u hu hrk st hst
    by_cases hm : outPath od loc u.name ∈ st.pages
    · exact ⟨st, by rw [render]; simp [hm], hst, hm, [], by simp, by simp⟩
    · obtain ⟨st1, hb, hst1, d, hd, hdb⟩ :=
        bodyGo_rank ih hR hu (Nat.lt_succ_iff.mp hrk) (outPath od loc u.name)
          u.body (fun q hq => hq) st hst
      have hnp : outPath od loc u.name ∉ st1.pages := by
        rw [hd]
        intro hin
        rcases List.mem_append.mp hin with hin1 | hin2
        · exact hm hin1
        · obtain ⟨v, hv, hrv, hpv⟩ := hdb _ hin2
          exact absurd (hI v hv u hu hpv.symm ▸ hrv) (lt_irrefl _)
      refine ⟨⟨st1.pages ++ [outPath od loc u.name],
          st1.fs ++ [(outPath od loc u.name, u)]⟩, ?_, ⟨⟨?_, ?_⟩, ?_⟩, by simp,
        d ++ [outPath od loc u.name], by rw [hd]; simp, ?_⟩
      · rw [render]
        simp only [hm, if_neg, not_false_iff, hb]
      · simp [hst1.1.1]
      · intro e he
        rcases List.mem_append.mp he with hold | hnew
        · exact hst1.1.2 e hold
        · rw [List.mem_singleton.mp hnew]
          exact ⟨rfl, hu⟩
      · simp [List.nodup_append, hst1.2, hnp]
      · intro p hp
        rcases List.mem_append.mp hp with hp1 | hp2
        · obtain ⟨v, hv, hrv, hpv⟩ := hdb p hp1
          exact ⟨v, hv, le_of_lt hrv, hpv⟩
        · exact ⟨u, hu, le_refl _, List.mem_singleton.mp hp2⟩

/-- Driving the renderer over the full template list under the rank and
no-collision hypotheses: every drive succeeds and every page ends up in the
memo. -/
lemma renderAll_rank {tl : List Template} {od loc : String} {rank : Template → Nat}
    (hR : RankOK tl rank) (hI : InjPaths tl od loc) (n : Nat) :
    ∀ (ts : List Template), (∀ t ∈ ts, t ∈ tl ∧ rank t < n) →
      ∀ st, InvM tl od loc st →
        ∃ st', renderAll tl od loc n st ts = some st' ∧ InvM tl od loc st' ∧
          (∃ d, st'.pages = st.pages ++ d) ∧
          ∀ t ∈ ts, outPath od loc t.name ∈ st'.pages := by
  intro ts
  induction ts with
  | nil => intro _ st hst; exact ⟨st, by rw [renderAll], hst, ⟨[], by simp⟩, by simp⟩
  | cons t ts ihts =>
    intro hts st hst
    obtain ⟨htl, hrk⟩ := hts t (List.mem_cons_self ..)
    obtain ⟨st1, hr, hst1, hmem1, d1, hd1, -⟩ := render_rank hR hI n t htl hrk st hst
    obtain ⟨st2, hall, hst2, ⟨d2, hd2⟩, hmem2⟩ :=
      ihts (fun v hv => hts v (List.mem_cons_of_mem _ hv)) st1 hst1
    refine ⟨st2, ?_, hst2, ⟨d1 ++ d2, by rw [hd2, hd1, List.append_assoc]⟩, ?_⟩
    · rw [renderAll]
      simp only [hr, hall]
    · intro v hv
      rcases List.mem_cons.mp hv with rfl | hv2
      · rw [hd2]
        exact List.mem_append.mpr (Or.inl hmem1)
      · exact hmem2 v hv2

/-- With no output-path collisions, reading back a rendered target's page
yields that target's own content. -/
lemma lookupFs_self {tl : List Template} {od loc : String}
    (hI : InjPaths tl od loc) {st : RState} (hst : InvBasic tl od loc st)
    {u : Template} (hu : u ∈ tl) {c : Template}
    (hc : lookupFs st.fs (outPath od loc u.name) = some c) : c = u := by
  have hcm := lookupFs_mem hc
  obtain ⟨hpath, hctl⟩ := hst.2 _ hcm
  exact hI c hctl u hu hpath.symm

/-- A completed autolink loop yields exactly the declarative link list of
its matched targets, in order: URL from the relative-path formula, title
read back from the page (empty when missing), description as stored
(absent when missing). -/
lemma autolinkGo_yields {tl : List Template} {od loc : String} {n : Nat}
    (hI : InjPaths tl od loc) :
    ∀ (ms : List Template), (∀ u ∈ ms, u ∈ tl) →
      ∀ (st : RState) (pp : String) (st' : RState) (links : Links),
        InvBasic tl od loc st →
        autolinkGo (render tl od loc n) pp st ms = some (st', links) →
        links = ms.map (fun u =>
          (pjoin (relpath (dirname (outPath od loc u.name)) (dirname pp))
              (basename (outPath od loc u.name)), (u.title?).getD "", u.desc?)) := by
  intro ms
  induction ms with
  | nil =>
    intro _ st pp st' links _ h
    rw [autolinkGo] at h
    cases h
    rfl
  | cons target rest ihm =>
    intro hms st pp st' links hst h
    rw [autolinkGo] at h
    cases hr : render tl od loc n st target with
    | none => rw [hr] at h; exact Option.noConfusion h
    | some pr =>
      obtain ⟨st1, tp⟩ := pr
      simp only [hr] at h
      obtain ⟨hp, -⟩ := render_post hr
      have hst1 : InvBasic tl od loc st1 :=
        (render_grow n target (hms target (List.mem_cons_self ..)) st st1 tp hr).2.2.2.2 hst
      cases hc : lookupFs st1.fs tp with
      | none => rw [hc] at h; exact Option.noConfusion h
      | some doc =>
        simp only [hc] at h
        have hdoc : doc = target := by
          subst hp
          exact lookupFs_self hI hst1 (hms target (List.mem_cons_self ..)) hc
        cases ha : autolinkGo (render tl od loc n) pp st1 rest with
        | none => rw [ha] at h; exact Option.noConfusion h
        | some pr2 =>
          obtain ⟨st2, links2⟩ := pr2
          simp only [ha] at h
          cases h
          rw [List.map_cons,
            ihm (fun u hu => hms u (List.mem_cons_of_mem _ hu)) st1 pp _ _ hst1 ha]
          subst hdoc
          subst hp
          rfl

/-! ### String-level path lemmas for the output-path convention (C4) -/

lemma string_data_append (a b : String) : (a ++ b).data = a.data ++ b.data := rfl

lemma takeWhile_append_all {p : Char → Bool} {l₁ : List Char} (l₂ : List Char)
    (h : ∀ c ∈ l₁, p c) : (l₁ ++ l₂).takeWhile p = l₁ ++ l₂.takeWhile p := by
  induction l₁ with
  | nil => rfl
  | cons c cs ih =>
    simp [List.takeWhile_cons, h c (List.mem_cons_self ..),
      ih (fun x hx => h x (List.mem_cons_of_mem _ hx))]

lemma dropWhile_append_all {p : Char → Bool} {l₁ : List Char} (l₂ : List Char)
    (h : ∀ c ∈ l₁, p c) : (l₁ ++ l₂).dropWhile p = l₂.dropWhile p := by
  induction l₁ with
  | nil => rfl
  | cons c cs ih =>
    simp [List.dropWhile_cons, h c (List.mem_cons_self ..),
      ih (fun x hx => h x (List.mem_cons_of_mem _ hx))]

lemma head?_append_of_ne_nil {l₁ : List Char} (l₂ : List Char) (h : l₁ ≠ []) :
    (l₁ ++ l₂).head? = l₁.head? := by
  cases l₁ with
  | nil => exact absurd rfl h
  | cons c cs => rfl

lemma pjoin_ne_left {a : String} (b : String) (ha : a ≠ "") : pjoin a b ≠ "" := by
  have hda : a.data ≠ [] := fun hcon => ha (String.ext hcon)
  intro hcon
  have hd : (pjoin a b).data = [] := by rw [hcon]
  unfold pjoin at hd
  split at hd
  · rename_i hbh
    rw [hd] at hbh
    exact Option.noConfusion hbh
  · split at hd
    · rw [string_data_append] at hd
      exact hda (List.append_eq_nil.mp hd).1
    · rw [string_data_append, string_data_append] at hd
      exact hda (List.append_eq_nil.mp (List.append_eq_nil.mp hd).1).1

lemma pjoin_no_char {a b : String} {c : Char} (hc : c ≠ '/')
    (hca : c ∉ a.data) (hcb : c ∉ b.data) : c ∉ (pjoin a b).data := by
  unfold pjoin
  split
  · exact hcb
  · split
    · rw [string_data_append]
      simp [List.mem_append, hca, hcb]
    · rw [string_data_append, string_data_append]
      simp [List.mem_append, hca, hcb, hc]

lemma pjoin_data_last_slash {a b : String} (ha : a.data.getLast? = some '/')
    (hb : b.data.head? ≠ some '/') : (pjoin a b).data = a.data ++ b.data := by
  unfold pjoin
  rw [if_neg hb, if_pos (Or.inr ha)]
  rfl

lemma pjoin_data_no_slash {a b : String} (ha : a ≠ "")
    (ha2 : a.data.getLast? ≠ some '/') (hb : b.data.head? ≠ some '/') :
    (pjoin a b).data = a.data ++ '/' :: b.data := by
  unfold pjoin
  rw [if_neg hb, if_neg (by simp [ha, ha2])]
  rw [string_data_append, string_data_append]
  simp

lemma concat_data {d b : String} : (d ++ "/" ++ b).data = d.data ++ '/' :: b.data := by
  rw [string_data_append, string_data_append]
  simp

lemma basename_concat {d b : String} (hb : '/' ∉ b.data) :
    basename (d ++ "/" ++ b) = b := by
  apply String.ext
  show ((d ++ "/" ++ b).data.reverse.takeWhile (· ≠ '/')).reverse = b.data
  have hrev : (d ++ "/" ++ b).data.reverse = b.data.reverse ++ '/' :: d.data.reverse := by
    rw [concat_data]
    simp
  have hball : ∀ c ∈ b.data.reverse, decide (c ≠ '/') = true := fun c hc =>
    decide_eq_true (fun hcc => hb (hcc ▸ List.mem_reverse.mp hc))
  rw [hrev, takeWhile_append_all _ hball, List.takeWhile_cons]
  simp

lemma dirname_concat {d b : String} (hb : '/' ∉ b.data) (hd0 : d ≠ "")
    (hdl : d.data.getLast? ≠ some '/') : dirname (d ++ "/" ++ b) = d := by
  have hda : d.data ≠ [] := fun hcon => hd0 (String.ext hcon)
  have hrev : (d ++ "/" ++ b).data.reverse = b.data.reverse ++ '/' :: d.data.reverse := by
    rw [concat_data]
    simp
  have hball : ∀ c ∈ b.data.reverse, decide (c ≠ '/') = true := fun c hc =>
    decide_eq_true (fun hcc => hb (hcc ▸ List.mem_reverse.mp hc))
  have hhead : ((d ++ "/" ++ b).data.reverse.dropWhile (· ≠ '/')).reverse =
      d.data ++ ['/'] := by
    rw [hrev, dropWhile_append_all _ hball, List.dropWhile_cons]
    simp
  unfold dirname
  rw [hhead]
  have hlast : d.data.getLast hda ∈ d.data ++ ['/'] :=
    List.mem_append.mpr (Or.inl (List.getLast_mem hda))
  have hlne : d.data.getLast hda ≠ '/' := fun hcon =>
    hdl (by rw [List.getLast?_eq_getLast _ hda, hcon])
  rw [if_pos]
  · apply String.ext
    show ((d.data ++ ['/']).reverse.dropWhile (· = '/')).reverse = d.data
    rw [List.reverse_append]
    show (('/' :: d.data.reverse).dropWhile (· = '/')).reverse = d.data
    rw [List.dropWhile_cons, if_pos (by decide)]
    cases hdr : d.data.reverse with
    | nil => exact absurd (by simpa using congrArg List.reverse hdr) hda
    | cons c cs =>
      have hc : c = d.data.getLast hda := by
        have hgl := @List.getLast?_eq_head?_reverse Char d.data
        rw [hdr, List.getLast?_eq_getLast _ hda] at hgl
        exact (Option.some.injEq .. ▸ hgl).symm
      rw [List.dropWhile_cons, if_neg (fun h => hlne (hc ▸ of_decide_eq_true h))]
      rw [← hdr]
      simp
  · constructor
    · simp
    · rw [List.any_eq_true]
      exact ⟨d.data.getLast hda, hlast, decide_eq_true hlne⟩

/-! ### Claim C4 -/

/-- C4 counterexample: the code strips at the first dot of the whole joined
path, not of the bare filename.  With output root `out.d` the computed
output path collapses to `out.html` instead of the claimed
`out.d/en/blog/post.html`. -/
theorem C4_counterexample :
    outPath "out.d" "en" "blog/post.html.jinja" = "out.html" ∧
      specOutPath "out.d" "en" "blog/post.html.jinja" = "out.d/en/blog/post.html" ∧
      outPath "out.d" "en" "blog/post.html.jinja" ≠
        specOutPath "out.d" "en" "blog/post.html.jinja" := by
  decide

/-- C4 (amended): the computed output path strips at the first dot of the
full joined path `outputRoot/locale/templateName`; whenever the output
root, the locale and the template's directory part contain no dot (and are
otherwise well-formed), this coincides with the claimed convention of
splitting the bare filename on its first dot, discarding the rest and
appending `.html`. -/
theorem C4_output_path (root locale d b : String) {name : String}
    (hroot : root ≠ "") (hrd : '.' ∉ root.data) (hld : '.' ∉ locale.data)
    (hdd : '.' ∉ d.data) (hd0 : d ≠ "") (hdh : d.data.head? ≠ some '/')
    (hdl : d.data.getLast? ≠ some '/') (hbs : '/' ∉ b.data)
    (hname : name = d ++ "/" ++ b) :
    outPath root locale name = specOutPath root locale name := by
  subst hname
  have hda : d.data ≠ [] := fun hcon => hd0 (String.ext hcon)
  have hPne : pjoin root locale ≠ "" := pjoin_ne_left locale hroot
  have hPdot : '.' ∉ (pjoin root locale).data := pjoin_no_char (by decide) hrd hld
  have hnd : (d ++ "/" ++ b).data = d.data ++ '/' :: b.data := concat_data
  have hnh : (d ++ "/" ++ b).data.head? ≠ some '/' := by
    rw [hnd, head?_append_of_ne_nil _ hda]
    exact hdh
  have hbase : basename (d ++ "/" ++ b) = b := basename_concat hbs
  have hdir : dirname (d ++ "/" ++ b) = d := dirname_concat hbs hd0 hdl
  have hxd : (strip_exts b ++ ".html").data =
      b.data.takeWhile (· ≠ '.') ++ ".html".data := by
    rw [string_data_append]
    rfl
  have hxh : (strip_exts b ++ ".html").data.head? ≠ some '/' := by
    rw [hxd]
    cases htw : b.data.takeWhile (· ≠ '.') with
    | nil => decide
    | cons c cs =>
      have hcb : c ∈ b.data := by
        rw [← List.takeWhile_append_dropWhile (· ≠ '.') b.data, htw]
        simp
      simp only [List.cons_append, List.head?_cons]
      intro hcon
      exact hbs ((Option.some.injEq .. ▸ hcon) ▸ hcb)
  have hih : (pjoin d (strip_exts b ++ ".html")).data.head? ≠ some '/' := by
    rw [pjoin_data_no_slash hd0 hdl hxh, head?_append_of_ne_nil _ hda]
    exact hdh
  have hPall : ∀ c ∈ (pjoin root locale).data, decide (c ≠ '.') = true :=
    fun c hc => decide_eq_true (fun hcc => hPdot (hcc ▸ hc))
  have hdall : ∀ c ∈ d.data, decide (c ≠ '.') = true :=
    fun c hc => decide_eq_true (fun hcc => hdd (hcc ▸ hc))
  by_cases hPl : (pjoin root locale).data.getLast? = some '/'
  · have hLHS : (outPath root locale (d ++ "/" ++ b)).data =
        (pjoin root locale).data ++ (d.data ++ '/' :: b.data.takeWhile (· ≠ '.')) ++
          ".html".data := by
      show (strip_exts (pjoin (pjoin root locale) (d ++ "/" ++ b)) ++ ".html").data = _
      rw [string_data_append]
      show (pjoin (pjoin root locale) (d ++ "/" ++ b)).data.takeWhile (· ≠ '.') ++
        ".html".data = _
      rw [pjoin_data_last_slash hPl hnh, hnd, takeWhile_append_all _ hPall,
        takeWhile_append_all _ hdall, List.takeWhile_cons, if_pos (by decide)]
    have hRHS : (specOutPath root locale (d ++ "/" ++ b)).data =
        (pjoin root locale).data ++
          (d.data ++ '/' :: (b.data.takeWhile (· ≠ '.') ++ ".html".data)) := by
      show (pjoin (pjoin root locale) (pjoin (dirname (d ++ "/" ++ b))
        (strip_exts (basename (d ++ "/" ++ b)) ++ ".html"))).data = _
      rw [hdir, hbase, pjoin_data_last_slash hPl hih,
        pjoin_data_no_slash hd0 hdl hxh, hxd]
    apply String.ext
    rw [hLHS, hRHS]
    simp
  · have hLHS : (outPath root locale (d ++ "/" ++ b)).data =
        (pjoin root locale).data ++
          ('/' :: (d.data ++ '/' :: b.data.takeWhile (· ≠ '.'))) ++ ".html".data := by
      show (strip_exts (pjoin (pjoin root locale) (d ++ "/" ++ b)) ++ ".html").data = _
      rw [string_data_append]
      show (pjoin (pjoin root locale) (d ++ "/" ++ b)).data.takeWhile (· ≠ '.') ++
        ".html".data = _
      rw [pjoin_data_no_slash hPne hPl hnh, hnd, takeWhile_append_all _ hPall,
        List.takeWhile_cons, if_pos (by decide), takeWhile_append_all _ hdall,
        List.takeWhile_cons, if_pos (by decide)]
    have hRHS : (specOutPath root locale (d ++ "/" ++ b)).data =
        (pjoin root locale).data ++
          ('/' :: (d.data ++ '/' :: (b.data.takeWhile (· ≠ '.') ++ ".html".data))) := by
      show (pjoin (pjoin root locale) (pjoin (dirname (d ++ "/" ++ b))
        (strip_exts (basename (d ++ "/" ++ b)) ++ ".html"))).data = _
      rw [hdir, hbase, pjoin_data_no_slash hPne hPl hih,
        pjoin_data_no_slash hd0 hdl hxh, hxd]
    apply String.ext
    rw [hLHS, hRHS]
    simp

/-- C4 witness: the two examples of the claim, with a dot-free root.  With
locale `en` the path is `out/en/blog/post.html`; with no locale (the empty
locale of the unlocalized mode) it is `out/blog/post.html`. -/
theorem C4_output_path_witness :
    (outPath "out" "en" "blog/post.html.jinja" =
        specOutPath "out" "en" "blog/post.html.jinja" ∧
      outPath "out" "en" "blog/post.html.jinja" = "out/en/blog/post.html") ∧
      (outPath "out" "" "blog/post.html.jinja" =
          specOutPath "out" "" "blog/post.html.jinja" ∧
        outPath "out" "" "blog/post.html.jinja" = "out/blog/post.html") :=
  ⟨⟨C4_output_path "out" "en" "blog" "post.html.jinja" (by decide) (by decide)
      (by decide) (by decide) (by decide) (by decide) (by decide) (by decide)
      (by decide), by decide⟩,
    ⟨C4_output_path "out" "" "blog" "post.html.jinja" (by decide) (by decide)
      (by decide) (by decide) (by decide) (by decide) (by decide) (by decide)
      (by decide), by decide⟩⟩

/-! ### Claims C2, C9, C10 -/

/-- C2: after a completed `render` of a template under a locale, a second
`render` call for the same template returns the same output path and leaves
the state untouched: no write is appended to the file log and the template
body is not re-evaluated (the memo hit returns immediately). -/
theorem C2_rerender_is_noop {tl : List Template} {od loc : String} {n : Nat}
    {st st' : RState} {t : Template} {p : String}
    (h : render tl od loc n st t = some (st', p)) (m : Nat) :
    render tl od loc (m + 1) st' t = some (st', p) := by
  obtain ⟨hp, hmem⟩ := render_post h
  subst hp
  rw [render]
  simp [hmem]

/-- C2 witness: a first render of `tBare` completes; the second call at the
resulting state returns the same path and the very same state. -/
theorem C2_rerender_is_noop_witness :
    render [tBare] "out" "en" (0 + 1)
      ⟨["out/en/index.html"], [("out/en/index.html", tBare)]⟩ tBare =
      some (⟨["out/en/index.html"], [("out/en/index.html", tBare)]⟩, "out/en/index.html") :=
  C2_rerender_is_noop
    (show render [tBare] "out" "en" 1 ⟨[], []⟩ tBare =
        some (⟨["out/en/index.html"], [("out/en/index.html", tBare)]⟩, "out/en/index.html")
      by decide) 0

/-- C9: when two distinct templates map to the same output path, the first
one rendered is evaluated and written; a later `render` call for the other
template changes nothing (no write, no evaluation — its content is silently
discarded) and returns the first template's output path. -/
theorem C9_collision_discards_second {tl : List Template} {od loc : String} {n : Nat}
    {st st' : RState} {t1 t2 : Template} {p : String} (_hne : t1 ≠ t2)
    (hcoll : outPath od loc t2.name = outPath od loc t1.name)
    (hnew : outPath od loc t1.name ∉ st.pages)
    (h : render tl od loc n st t1 = some (st', p)) :
    p = outPath od loc t1.name ∧ (p, t1) ∈ st'.fs ∧
      ∀ m, render tl od loc (m + 1) st' t2 = some (st', p) := by
  obtain ⟨hp, hmem⟩ := render_post h
  refine ⟨hp, render_write h hnew, fun m => ?_⟩
  rw [render, hcoll, ← hp]
  simp [hmem]

/-- C9 witness: `a.html.jinja` and `a.txt.jinja` collide on
`out/en/a.html`; after rendering the first, rendering the second writes
nothing and returns the first one's path. -/
theorem C9_collision_discards_second_witness :
    ("out/en/a.html", tColl1) ∈
        (RState.mk ["out/en/a.html"] [("out/en/a.html", tColl1)]).fs ∧
      render [tColl1, tColl2] "out" "en" (0 + 1)
        ⟨["out/en/a.html"], [("out/en/a.html", tColl1)]⟩ tColl2 =
        some (⟨["out/en/a.html"], [("out/en/a.html", tColl1)]⟩, "out/en/a.html") :=
  have h9 := C9_collision_discards_second (by decide) (by decide) (by decide)
    (show render [tColl1, tColl2] "out" "en" 1 ⟨[], []⟩ tColl1 =
        some (⟨["out/en/a.html"], [("out/en/a.html", tColl1)]⟩, "out/en/a.html")
      by decide)
  ⟨h9.2.1, h9.2.2 0⟩

/-- The memo is only extended after the body completes, so a template whose
autolink query matches itself re-enters its own still-unmemoized render and
never finishes, at any fuel. -/
lemma render_tSelf_diverges : ∀ (n : Nat) (st : RState),
    outPath "out" "en" tSelf.name ∉ st.pages →
    render [tSelf] "out" "en" n st tSelf = none := by
  intro n
  induction n with
  | zero => intro st _; rfl
  | succ k ih =>
    intro st hmem
    rw [render]
    simp only [hmem, if_neg, not_false_iff]
    have hb : bodyGo (render [tSelf] "out" "en" k) [tSelf] (dirname tSelf.name)
        (outPath "out" "en" tSelf.name) st tSelf.body = none := by
      show bodyGo _ _ _ _ st [""] = none
      rw [bodyGo]
      have hmq : matchesQuery [tSelf] (dirname tSelf.name) "" = [tSelf] := by decide
      rw [hmq, autolinkGo, ih st hmem]
    rw [hb]

/-- C1 counterexample: for the one-template list `[tSelf]`, whose only
autolink query resolves to its own directory, driving `render` over all
templates does not terminate — no amount of fuel makes the locale pass
complete, because the re-entered render never finds its path memoized. -/
theorem C1_counterexample :
    ¬ ∃ (n : Nat) (st' : RState),
      renderAll [tSelf] "out" "en" n ⟨[], []⟩ [tSelf] = some st' := by
  rintro ⟨n, st', h⟩
  rw [renderAll, render_tSelf_diverges n ⟨[], []⟩ (by decide)] at h
  exact Option.noConfusion h

/-- C1 (amended): when the autolink dependency relation is acyclic — there
is a rank that strictly decreases from each template to every target its
queries match — and distinct templates have distinct output paths, driving
`render` over all templates with enough fuel terminates, and each distinct
output path is written exactly once during the locale's pass: the write log
holds no duplicate path and every template's output path is written. -/
theorem C1_terminates_writes_once {tl : List Template} {od loc : String}
    (rank : Template → Nat) (hR : RankOK tl rank) (hI : InjPaths tl od loc)
    {n : Nat} (hn : ∀ t ∈ tl, rank t < n) :
    ∃ st', renderAll tl od loc n ⟨[], []⟩ tl = some st' ∧
      (st'.fs.map Prod.fst).Nodup ∧
      ∀ t ∈ tl, outPath od loc t.name ∈ st'.fs.map Prod.fst := by
  obtain ⟨st', hall, hinv, -, hmem⟩ :=
    renderAll_rank hR hI n tl (fun t ht => ⟨ht, hn t ht⟩) ⟨[], []⟩
      ⟨⟨rfl, by simp⟩, List.nodup_nil⟩
  exact ⟨st', hall, by rw [hinv.1.1]; exact hinv.2,
    fun t ht => by rw [hinv.1.1]; exact hmem t ht⟩

/-- C1 witness: the worked example — an index autolinking the directory
that holds two posts — terminates at fuel 2 under the rank that places the
index above the posts, and writes each of the three distinct pages once. -/
theorem C1_terminates_writes_once_witness :
    RankOK [tHome, tPostA, tPostB] exRank ∧
      ∃ st', renderAll [tHome, tPostA, tPostB] "out" "en" 2 ⟨[], []⟩
          [tHome, tPostA, tPostB] = some st' ∧
        (st'.fs.map Prod.fst).Nodup ∧
        ∀ t ∈ [tHome, tPostA, tPostB],
          outPath "out" "en" t.name ∈ st'.fs.map Prod.fst :=
  ⟨by unfold RankOK; decide,
    C1_terminates_writes_once exRank (by unfold RankOK; decide)
      (by unfold InjPaths; decide) (by decide)⟩

/-- C6: a completed `autolink` call issued from a calling template yields
exactly one `(url, title, description)` tuple per template whose own
directory equals the resolved directory, in template-list discovery order;
each URL is the relative path from the calling page's output directory to
the target's rendered output path; a target page with no description
metadata yields an absent description and one with no title yields the
empty-string title.  (Stated under the no-collision hypothesis `InjPaths`:
with colliding output paths the page read back would carry another
template's content.) -/
theorem C6_autolink_yields_links {tl : List Template} {od loc : String} {n : Nat}
    {t : Template} {q : String} {st st' : RState} {links : Links}
    (hI : InjPaths tl od loc) (hst : InvBasic tl od loc st)
    (h : autolink tl od loc n (dirname t.name) (outPath od loc t.name) st q =
      some (st', links)) :
    links = (matchesQuery tl (dirname t.name) q).map (fun u =>
      (pjoin (relpath (dirname (outPath od loc u.name))
          (dirname (outPath od loc t.name)))
        (basename (outPath od loc u.name)), (u.title?).getD "", u.desc?)) :=
  autolinkGo_yields hI _ (fun _ hu => (List.mem_filter.mp hu).1) st _ st' links hst h

/-- C6 witness: the index page autolinks `blog`; it receives links to the
two posts in discovery order, with URLs relative to `out/en/index.html`,
post A's title and description, the empty title and absent description for
post B. -/
theorem C6_autolink_yields_links_witness :
    [("blog/a.html", "A", some "dA"), ("blog/b.html", "", (none : Option String))] =
      (matchesQuery [tHome, tPostA, tPostB] (dirname tHome.name) "blog").map (fun u =>
        (pjoin (relpath (dirname (outPath "out" "en" u.name))
            (dirname (outPath "out" "en" tHome.name)))
          (basename (outPath "out" "en" u.name)), (u.title?).getD "", u.desc?)) :=
  C6_autolink_yields_links (t := tHome) (by unfold InjPaths; decide)
    (by unfold InvBasic; decide)
    (show autolink [tHome, tPostA, tPostB] "out" "en" 2 (dirname tHome.name)
        (outPath "out" "en" tHome.name) ⟨[], []⟩ "blog" =
        some (⟨["out/en/blog/a.html", "out/en/blog/b.html"],
          [("out/en/blog/a.html", tPostA), ("out/en/blog/b.html", tPostB)]⟩,
        [("blog/a.html", "A", some "dA"), ("blog/b.html", "", none)])
      by decide)

/-- C10 counterexample: the claim's conclusion — that the result sequence
of a self-resolving query contains an entry for the calling page — is false
in execution.  For `tSelf`, whose query resolves to its own directory, the
scan does match the caller; but the autolink call issued from inside
`tSelf`'s own first render (memo still empty, exactly the state in which
the body's query runs) never yields the caller's entry: forcing it
re-enters the still-unmemoized render of `tSelf` — the memo is appended
only after the body completes — and diverges at every fuel, so no result
sequence materializes at all. -/
theorem C10_counterexample :
    tSelf ∈ matchesQuery [tSelf] (dirname tSelf.name) "" ∧
      ¬ ∃ (n : Nat) (st' : RState) (links : Links),
        autolink [tSelf] "out" "en" n (dirname tSelf.name)
          (outPath "out" "en" tSelf.name) ⟨[], []⟩ "" = some (st', links) := by
  refine ⟨by decide, ?_⟩
  rintro ⟨n, st', links, h⟩
  unfold autolink at h
  have hmq : matchesQuery [tSelf] (dirname tSelf.name) "" = [tSelf] := by decide
  rw [hmq, autolinkGo, render_tSelf_diverges n ⟨[], []⟩ (by decide)] at h
  exact Option.noConfusion h

/-- C10 (amended): an autolink query whose relative directory resolves to
the calling template's own directory matches the calling template itself —
the directory-equality scan does not exclude the caller — and every
sibling in that directory as well.  (The matched caller is scanned, not
yielded: forcing its entry during its own first render diverges, see the
counterexample.) -/
theorem C10_query_matches_caller {tl : List Template} {t : Template} {q : String}
    (hmem : t ∈ tl) (hself : pjoin (dirname t.name) q = dirname t.name) :
    t ∈ matchesQuery tl (dirname t.name) q ∧
      ∀ u ∈ tl, dirname u.name = dirname t.name →
        u ∈ matchesQuery tl (dirname t.name) q := by
  refine ⟨?_, fun u hu hd => ?_⟩ <;>
    simp [matchesQuery, List.mem_filter, hself, *]

/-- C10 witness: the top-level template `tSelf` queries the empty relative
path, which resolves to its own (root) directory, and matches itself. -/
theorem C10_query_matches_caller_witness :
    tSelf ∈ matchesQuery [tSelf] (dirname tSelf.name) "" :=
  (C10_query_matches_caller (by decide) (by decide)).1

/-! ### Lemmas about the locale loop and relative paths -/

/-- Driving the renderer over templates of the list only appends to the
state. -/
lemma renderAll_grow {tl : List Template} {od loc : String} {n : Nat} :
    ∀ (ts : List Template) (st st' : RState), (∀ t ∈ ts, t ∈ tl) →
      renderAll tl od loc n st ts = some st' →
      (∃ d, st'.pages = st.pages ++ d) ∧ ∃ d, st'.fs = st.fs ++ d := by
  intro ts
  induction ts with
  | nil =>
    intro st st' _ h
    rw [renderAll] at h
    cases h
    exact ⟨⟨[], by simp⟩, ⟨[], by simp⟩⟩
  | cons t ts ihts =>
    intro st st' hts h
    rw [renderAll] at h
    cases hr : render tl od loc n st t with
    | none => rw [hr] at h; exact Option.noConfusion h
    | some pr =>
      obtain ⟨st1, p⟩ := pr
      simp only [hr] at h
      obtain ⟨-, -, ⟨d1, hd1⟩, ⟨e1, he1⟩, -⟩ :=
        render_grow n t (hts t (List.mem_cons_self ..)) st st1 p hr
      obtain ⟨⟨d2, hd2⟩, ⟨e2, he2⟩⟩ :=
        ihts st1 st' (fun v hv => hts v (List.mem_cons_of_mem _ hv)) h
      exact ⟨⟨d1 ++ d2, by rw [hd2, hd1, List.append_assoc]⟩,
        ⟨e1 ++ e2, by rw [he2, he1, List.append_assoc]⟩⟩

/-- Inverting one locale iteration: the state advances by one render pass
and the trace grows by the pass message, the asset events and some write
events. -/
lemma localeStep_inv {tl : List Template} {src od fl : String}
    {sourceFiles : List String} {noSym : Bool} {fuel : Nat}
    {acc : RState × List Event} {l : String} {acc' : RState × List Event}
    (hs : localeStep tl src od fl sourceFiles noSym fuel acc l = some acc') :
    renderAll tl od l fuel acc.1 tl = some acc'.1 ∧
      ∃ w, acc'.2 = acc.2 ++ (Event.print ("Rendering locale " ++ l ++ "...") ::
          (assetEvents src od fl sourceFiles noSym l ++ w)) ∧
        ∀ e ∈ w, ∃ p, e = Event.write p := by
  unfold localeStep at hs
  cases hr : renderAll tl od l fuel acc.1 tl with
  | none => rw [hr] at hs; exact Option.noConfusion hs
  | some st1 =>
    simp only [hr] at hs
    cases hs
    refine ⟨rfl, (st1.fs.drop acc.1.fs.length).map (fun e => Event.write e.1),
      by simp, ?_⟩
    intro e he
    obtain ⟨en, -, hee⟩ := List.mem_map.mp he
    exact ⟨en.1, hee.symm⟩

/-- The locale loop only appends to the trace. -/
lemma localeLoop_trace_mono {tl : List Template} {src od fl : String}
    {sourceFiles : List String} {noSym : Bool} {fuel : Nat} :
    ∀ (locs : List String) (acc : RState × List Event) (st : RState)
      (tr : List Event),
      localeLoop tl src od fl sourceFiles noSym fuel acc locs = some (st, tr) →
      ∃ d, tr = acc.2 ++ d := by
  intro locs
  induction locs with
  | nil =>
    intro acc st tr h
    rw [localeLoop] at h
    obtain ⟨a1, a2⟩ := acc
    cases h
    exact ⟨[], by simp⟩
  | cons l ls ih =>
    intro acc st tr h
    rw [localeLoop] at h
    cases hs : localeStep tl src od fl sourceFiles noSym fuel acc l with
    | none => rw [hs] at h; exact Option.noConfusion h
    | some acc' =>
      simp only [hs] at h
      obtain ⟨d2, hd2⟩ := ih acc' st tr h
      obtain ⟨-, w, hw, -⟩ := localeStep_inv hs
      exact ⟨Event.print ("Rendering locale " ++ l ++ "...") ::
          (assetEvents src od fl sourceFiles noSym l ++ (w ++ d2)),
        by rw [hd2, hw]; simp⟩

/-- Every locale of the loop gets its asset events into the final trace. -/
lemma localeLoop_emits {tl : List Template} {src od fl : String}
    {sourceFiles : List String} {noSym : Bool} {fuel : Nat} :
    ∀ (locs : List String) (acc : RState × List Event) (st : RState)
      (tr : List Event),
      localeLoop tl src od fl sourceFiles noSym fuel acc locs = some (st, tr) →
      ∀ l ∈ locs, ∀ ev ∈ assetEvents src od fl sourceFiles noSym l, ev ∈ tr := by
  intro locs
  induction locs with
  | nil => intro acc st tr _ l hl; exact absurd hl (List.not_mem_nil l)
  | cons l0 ls ih =>
    intro acc st tr h l hl ev hev
    rw [localeLoop] at h
    cases hs : localeStep tl src od fl sourceFiles noSym fuel acc l0 with
    | none => rw [hs] at h; exact Option.noConfusion h
    | some acc' =>
      simp only [hs] at h
      rcases List.mem_cons.mp hl with rfl | hl2
      · obtain ⟨d, hd⟩ := localeLoop_trace_mono ls acc' st tr h
        obtain ⟨-, w, hw, -⟩ := localeStep_inv hs
        rw [hd, hw]
        simp [hev]
      · exact ih acc' st tr h l hl2 ev hev

/-- `splitSlash` never returns the empty list. -/
lemma splitSlash_ne_nil : ∀ l : List Char, splitSlash l ≠ []
  | [] => by simp [splitSlash]
  | c :: cs => by
    rw [splitSlash]
    by_cases hc : c = '/'
    · simp [hc]
    · rw [if_neg hc]
      cases h : splitSlash cs <;> simp

/-- Splitting distributes over an explicit separator. -/
lemma splitSlash_append : ∀ (x y : List Char),
    splitSlash (x ++ '/' :: y) = splitSlash x ++ splitSlash y := by
  intro x y
  induction x with
  | nil => simp [splitSlash]
  | cons c cs ih =>
    by_cases hc : c = '/'
    · subst hc
      rw [List.cons_append, splitSlash, if_pos rfl, ih]
      rw [splitSlash, if_pos rfl]
      rfl
    · rw [List.cons_append, splitSlash, if_neg hc, ih]
      conv_rhs => rw [splitSlash, if_neg hc]
      cases h : splitSlash cs with
      | nil => exact absurd h (splitSlash_ne_nil cs)
      | cons g gs => rfl

/-- The common prefix of `xs ++ ys` with `xs` is all of `xs`. -/
lemma commonPrefixLen_append : ∀ (xs ys : List (List Char)),
    commonPrefixLen (xs ++ ys) xs = xs.length := by
  intro xs ys
  induction xs with
  | nil => cases ys <;> rfl
  | cons x xs ih => simp [commonPrefixLen, ih]

/-- `os.path.relpath(os.path.join(src, f), src) = f` for a clean relative
`f` and a slash-free-tailed `src`, as used by the build's asset loop. -/
lemma relpath_pjoin_cancel {src f : String} (hsrc : src ≠ "")
    (hsl : src.data.getLast? ≠ some '/') (hfh : f.data.head? ≠ some '/')
    (hclean : (⟨joinComps (comps f)⟩ : String) = f) (hf0 : f ≠ "") :
    relpath (pjoin src f) src = f := by
  have hcomps : comps (pjoin src f) = comps src ++ comps f := by
    unfold comps
    rw [pjoin_data_no_slash hsrc hsl hfh, splitSlash_append, List.filter_append]
  have hcf : comps f ≠ [] := by
    intro hcon
    apply hf0
    rw [← hclean, hcon]
    rfl
  simp only [relpath]
  rw [hcomps, commonPrefixLen_append, Nat.sub_self, List.replicate_zero,
    List.nil_append, List.drop_left, if_neg hcf]
  exact hclean

/-! ### Claims C3, C5, C7, C8 -/

/-- C3 counterexample: with templates `[tBare]` and locales `en, jp`, the
memo observed at the start of the `jp` pass is the full state left by the
`en` pass — it already holds `out/en/index.html`, produced during the `en`
pass — because one renderer (one `pages` list) is created before the locale
loop and shared, not a fresh one per locale. -/
theorem C3_counterexample :
    localeSnapshots [tBare] "s" "out" "en" [] false 1 (⟨[], []⟩, []) ["en", "jp"] =
      some [("en", ⟨[], []⟩),
        ("jp", ⟨["out/en/index.html"], [("out/en/index.html", tBare)]⟩)] ∧
      outPath "out" "en" tBare.name ∈
        (RState.mk ["out/en/index.html"] [("out/en/index.html", tBare)]).pages ∧
      RState.mk ["out/en/index.html"] [("out/en/index.html", tBare)] ≠
        RState.mk [] [] :=
  ⟨by decide, by decide, by decide⟩

/-- C3 (amended): a single render-memo is created once per build and shared
across locales: the memo observed at the start of each locale's pass is
exactly the final state of the previous locale's pass, and the memo only
grows from pass to pass. -/
theorem C3_memo_shared {tl : List Template} {src od fl : String}
    {sourceFiles : List String} {noSym : Bool} {fuel : Nat} :
    ∀ (locs : List String) (acc : RState × List Event)
      (snaps : List (String × RState)),
      localeSnapshots tl src od fl sourceFiles noSym fuel acc locs = some snaps →
      snaps.map Prod.fst = locs ∧
      (∀ pr ∈ snaps.head?, pr.2 = acc.1) ∧
      List.Chain' (fun a b => renderAll tl od a.1 fuel a.2 tl = some b.2 ∧
        ∃ d, b.2.pages = a.2.pages ++ d) snaps := by
  intro locs
  induction locs with
  | nil =>
    intro acc snaps h
    rw [localeSnapshots] at h
    cases h
    exact ⟨rfl, by simp, List.chain'_nil⟩
  | cons l ls ih =>
    intro acc snaps h
    rw [localeSnapshots] at h
    cases hs : localeStep tl src od fl sourceFiles noSym fuel acc l with
    | none => rw [hs] at h; exact Option.noConfusion h
    | some acc' =>
      simp only [hs] at h
      cases hrec : localeSnapshots tl src od fl sourceFiles noSym fuel acc' ls with
      | none => rw [hrec] at h; exact Option.noConfusion h
      | some snaps1 =>
        simp only [hrec] at h
        cases h
        obtain ⟨hmap, hhead, hchain⟩ := ih acc' snaps1 hrec
        obtain ⟨hr, -⟩ := localeStep_inv hs
        refine ⟨by simp [hmap], by simp, ?_⟩
        apply List.chain'_cons'.mpr
        refine ⟨?_, hchain⟩
        intro b hb
        have hb2 := hhead b hb
        rw [hb2]
        refine ⟨hr, ?_⟩
        exact (renderAll_grow tl acc.1 acc'.1 (fun t ht => ht) hr).1

/-- C3 witness: the amended statement at the concrete two-locale build of
the counterexample — the `jp` snapshot is the `en` pass's final state. -/
theorem C3_memo_shared_witness :
    ([("en", RState.mk [] []),
        ("jp", RState.mk ["out/en/index.html"] [("out/en/index.html", tBare)])].map
      Prod.fst = ["en", "jp"]) ∧
      (∀ pr ∈ ([("en", RState.mk [] []),
          ("jp", RState.mk ["out/en/index.html"]
            [("out/en/index.html", tBare)])].head?),
        pr.2 = RState.mk [] []) ∧
      List.Chain' (fun a b =>
        renderAll [tBare] "out" a.1 1 a.2 [tBare] = some b.2 ∧
          ∃ d, b.2.pages = a.2.pages ++ d)
        [("en", RState.mk [] []),
          ("jp", RState.mk ["out/en/index.html"] [("out/en/index.html", tBare)])] :=
  @C3_memo_shared [tBare] "s" "out" "en" [] false 1 ["en", "jp"] (⟨[], []⟩, []) _
    (by decide)

/-- C5 counterexample: with zero locales the build still mutates the output
directory — its trace contains the removal of the output root's contents,
performed (main.py line 219) before the localization table is even read, so
the prior contents are not preserved. -/
theorem C5_counterexample :
    build [tBare] none "s" "out" [] false [] 1 =
      some (⟨[], []⟩, [Event.print ".simpleignore not found.",
        Event.rmtree (pjoin "out" "."), Event.print "Loading templates...",
        Event.print "No localizations in strings file."]) ∧
      Event.rmtree (pjoin "out" ".") ∈
        ([Event.print ".simpleignore not found.", Event.rmtree (pjoin "out" "."),
          Event.print "Loading templates...",
          Event.print "No localizations in strings file."] : List Event) :=
  ⟨by decide, by decide⟩

/-- C5 (amended): with zero locales the build completes with a message and
creates nothing under the output root — after the unconditional initial
clearing (which does remove the prior contents), the trace holds only
messages: no write, copy, symlink or directory creation. -/
theorem C5_empty_table_no_creation (discovered : List Template)
    (ign : Option (List String)) (src od : String) (sourceFiles : List String)
    (noSym : Bool) (fuel : Nat) :
    build discovered ign src od sourceFiles noSym [] fuel =
      some (⟨[], []⟩, [Event.print (ignoreMsg ign), Event.rmtree (pjoin od "."),
        Event.print "Loading templates...",
        Event.print "No localizations in strings file."]) ∧
      ([Event.print (ignoreMsg ign), Event.rmtree (pjoin od "."),
        Event.print "Loading templates...",
        Event.print "No localizations in strings file."].filter creates) = [] :=
  ⟨rfl, rfl⟩

/-- C8: in a completed build over a non-empty table, the primary locale is
the first in declaration order and its recursive asset copy is traced
before any symlink: the trace splits as `t1 ++ t2` with the primary copy in
`t1` and no symlink event anywhere in `t1`. -/
theorem C8_primary_copy_before_symlinks {discovered : List Template}
    {ign : Option (List String)} {src od : String} {sourceFiles : List String}
    {noSym : Bool} {fuel : Nat} {fl : String} {s0 : List (String × String)}
    {rest : Localizations} {st : RState} {tr : List Event}
    (h : build discovered ign src od sourceFiles noSym ((fl, s0) :: rest) fuel =
      some (st, tr)) :
    ∃ t1 t2, tr = t1 ++ t2 ∧ Event.copytree src (pjoin od fl) ∈ t1 ∧
      ∀ e ∈ t1, isSymlinkEvent e = false := by
  simp only [build, List.map_cons] at h
  rw [localeLoop] at h
  cases hs : localeStep (discovered.filter (fun t => decide (t.name ∉ ign.getD [])))
      src od fl sourceFiles noSym fuel
      (⟨⟨[], []⟩, [Event.print (ignoreMsg ign), Event.rmtree (pjoin od "."),
        Event.print "Loading templates..."]⟩) fl with
  | none => rw [hs] at h; exact Option.noConfusion h
  | some acc' =>
    simp only [hs] at h
    obtain ⟨d, hd⟩ := localeLoop_trace_mono _ acc' st tr h
    obtain ⟨-, w, hw, hww⟩ := localeStep_inv hs
    have hae : assetEvents src od fl sourceFiles noSym fl =
        [Event.copytree src (pjoin od fl)] := by
      unfold assetEvents
      rw [if_pos (Or.inl rfl)]
    refine ⟨acc'.2, d, hd, ?_, ?_⟩
    · rw [hw, hae]
      simp
    · intro e he
      rw [hw] at he
      rcases List.mem_append.mp he with h1 | h2
      · simp only [List.mem_cons] at h1
        rcases h1 with rfl | rfl | rfl | hcon
        · rfl
        · rfl
        · rfl
        · exact absurd hcon (List.not_mem_nil e)
      · rcases List.mem_cons.mp h2 with rfl | h3
        · rfl
        · rw [hae] at h3
          rcases List.mem_append.mp h3 with h4 | h5
          · rcases List.mem_singleton.mp h4 with rfl
            rfl
          · obtain ⟨p, rfl⟩ := hww e h5
            rfl

/-- C7: for every non-template asset `f` and every secondary locale of a
completed build (symlinking enabled), the trace contains a symlink at the
same relative path `f` under the locale's directory whose target is the
relative path from the link's parent directory to the primary locale's
parent directory for `f`, joined with `f`'s basename. -/
theorem C7_secondary_asset_symlink {discovered : List Template}
    {ign : Option (List String)} {src od : String} {sourceFiles : List String}
    {fuel : Nat} {fl : String} {s0 : List (String × String)}
    {rest : Localizations} {st : RState} {tr : List Event}
    (h : build discovered ign src od sourceFiles false ((fl, s0) :: rest) fuel =
      some (st, tr))
    {loc : String} (hloc : loc ∈ fl :: rest.map Prod.fst) (hlf : loc ≠ fl)
    {f : String} (hf : f ∈ sourceFiles) (hft : extension f ≠ ".jinja")
    (hsrc : src ≠ "") (hsl : src.data.getLast? ≠ some '/')
    (hfh : f.data.head? ≠ some '/')
    (hclean : (⟨joinComps (comps f)⟩ : String) = f) (hf0 : f ≠ "") :
    Event.symlink
        (pjoin (relpath (dirname (pjoin (pjoin od fl) f))
            (dirname (pjoin (pjoin od loc) f)))
          (basename f))
        (pjoin (pjoin od loc) f) ∈ tr := by
  simp only [build, List.map_cons] at h
  refine localeLoop_emits _ _ _ _ h loc hloc _ ?_
  unfold assetEvents
  rw [if_neg (by simp [hlf])]
  apply List.mem_flatten.mpr
  refine ⟨symlink (relpath (pjoin src f) src) (pjoin od loc) (pjoin od fl), ?_, ?_⟩
  · apply List.mem_map.mpr
    refine ⟨pjoin src f, ?_, rfl⟩
    unfold assets
    apply List.mem_map.mpr
    exact ⟨f, List.mem_filter.mpr ⟨hf, by simp [hft]⟩, rfl⟩
  · rw [relpath_pjoin_cancel hsrc hsl hfh hclean hf0]
    unfold symlink
    simp

/-- C8 witness: the two-locale build of one template and one asset — the
`en` copy is traced before the only symlink, which the `jp` pass creates. -/
theorem C8_primary_copy_before_symlinks_witness :
    ∃ t1 t2,
      [Event.print ".simpleignore not found.", Event.rmtree (pjoin "out" "."),
        Event.print "Loading templates...", Event.print "Rendering locale en...",
        Event.copytree "s" "out/en", Event.write "out/en/index.html",
        Event.print "Rendering locale jp...", Event.makedirs "out/jp/img",
        Event.symlink "../../en/img/cat.jpg" "out/jp/img/cat.jpg",
        Event.write "out/jp/index.html"] = t1 ++ t2 ∧
      Event.copytree "s" (pjoin "out" "en") ∈ t1 ∧
      ∀ e ∈ t1, isSymlinkEvent e = false :=
  C8_primary_copy_before_symlinks
    (show build [tBare] none "s" "out" ["img/cat.jpg"] false
        [("en", []), ("jp", [])] 1 =
      some (⟨["out/en/index.html", "out/jp/index.html"],
          [("out/en/index.html", tBare), ("out/jp/index.html", tBare)]⟩,
        [Event.print ".simpleignore not found.", Event.rmtree (pjoin "out" "."),
          Event.print "Loading templates...", Event.print "Rendering locale en...",
          Event.copytree "s" "out/en", Event.write "out/en/index.html",
          Event.print "Rendering locale jp...", Event.makedirs "out/jp/img",
          Event.symlink "../../en/img/cat.jpg" "out/jp/img/cat.jpg",
          Event.write "out/jp/index.html"])
      by decide)

/-- C7 witness: the asset `img/cat.jpg` under secondary locale `jp` is
symlinked at `out/jp/img/cat.jpg`, and the computed relative target is
exactly `../../en/img/cat.jpg`. -/
theorem C7_secondary_asset_symlink_witness :
    Event.symlink
        (pjoin (relpath (dirname (pjoin (pjoin "out" "en") "img/cat.jpg"))
            (dirname (pjoin (pjoin "out" "jp") "img/cat.jpg")))
          (basename "img/cat.jpg"))
        (pjoin (pjoin "out" "jp") "img/cat.jpg") ∈
      [Event.print ".simpleignore not found.", Event.rmtree (pjoin "out" "."),
        Event.print "Loading templates...", Event.print "Rendering locale en...",
        Event.copytree "s" "out/en", Event.write "out/en/index.html",
        Event.print "Rendering locale jp...", Event.makedirs "out/jp/img",
        Event.symlink "../../en/img/cat.jpg" "out/jp/img/cat.jpg",
        Event.write "out/jp/index.html"] ∧
      pjoin (relpath (dirname (pjoin (pjoin "out" "en") "img/cat.jpg"))
          (dirname (pjoin (pjoin "out" "jp") "img/cat.jpg")))
        (basename "img/cat.jpg") = "../../en/img/cat.jpg" ∧
      pjoin (pjoin "out" "jp") "img/cat.jpg" = "out/jp/img/cat.jpg" :=
  ⟨C7_secondary_asset_symlink
    (show build [tBare] none "s" "out" ["img/cat.jpg"] false
        [("en", []), ("jp", [])] 1 =
      some (⟨["out/en/index.html", "out/jp/index.html"],
          [("out/en/index.html", tBare), ("out/jp/index.html", tBare)]⟩,
        [Event.print ".simpleignore not found.", Event.rmtree (pjoin "out" "."),
          Event.print "Loading templates...", Event.print "Rendering locale en...",
          Event.copytree "s" "out/en", Event.write "out/en/index.html",
          Event.print "Rendering locale jp...", Event.makedirs "out/jp/img",
          Event.symlink "../../en/img/cat.jpg" "out/jp/img/cat.jpg",
          Event.write "out/jp/index.html"])
      by decide)
    (by decide) (by decide) (by decide) (by decide) (by decide) (by decide)
    (by decide) (by decide) (by decide), by decide, by decide⟩

/-- Sanity of the path primitives against the Python semantics they embed:
`os.path.dirname`, `os.path.splitext`-based `extension`, `os.path.join` and
`os.path.relpath` on the documented examples of the source. -/
lemma path_primitives_sanity :
    dirname "a/b/c" = "a/b" ∧ dirname "c" = "" ∧ dirname "/a" = "/" ∧
      dirname "a//b" = "a" ∧
      extension "index.html.jinja" = ".jinja" ∧ extension ".bashrc" = "" ∧
      extension "img/cat.jpg" = ".jpg" ∧ extension "noext" = "" ∧
      pjoin "" "" = "" ∧ pjoin "out" "" = "out/" ∧ pjoin "" "blog" = "blog" ∧
      pjoin "blog" "." = "blog/." ∧
      relpath "output/en/img" "output/jp/img" = "../../en/img" ∧
      strip_exts "index.html.jinja" = "index" := by
  decide

end S3
